import Mathlib

/-
Verification of the amount-extraction routine of the Autopay_upi backend
(src/amt_transcription/backend.py, function extract_amount).

The embedding models text as Lean String values (lists of characters) and
translates the Python routine faithfully for ASCII text:
  - re.findall of one-or-more digits is modelled as the list of maximal
    runs of decimal-digit characters, scanned left to right;
  - str.lower maps the 26 ASCII uppercase letters (code points 65 to 90)
    to lowercase and leaves every other character unchanged;
  - str.split with no arguments is modelled as the list of maximal runs of
    non-whitespace characters (Python whitespace, ASCII range);
  - re.sub removing every character that is neither a word character
    (alphanumeric or underscore) nor whitespace is modelled as a filter;
  - int on a nonempty digit string is decimal evaluation;
  - Python integers are modelled as Int, and the ternary truthiness tests
    on the accumulator (nonzero means truthy) are explicit comparisons.
-/

/-- Python whitespace characters in the ASCII range, as used by str.split
and matched by the whitespace class of the regexes: space (32), tab (9),
newline (10), carriage return (13), vertical tab (11), form feed (12),
and the file, group, record and unit separators (28 to 31). -/
def isWs (c : Char) : Bool :=
  decide (c.toNat = 32 ∨ c.toNat = 9 ∨ c.toNat = 10 ∨ c.toNat = 13 ∨
          c.toNat = 11 ∨ c.toNat = 12 ∨ (28 ≤ c.toNat ∧ c.toNat ≤ 31))

/-- Decimal digit character, the digit class of the regex: code points of
0 through 9 are 48 through 57. -/
def isDigitC (c : Char) : Bool :=
  decide (48 ≤ c.toNat ∧ c.toNat ≤ 57)

/-- Word character of the regex word class (ASCII): uppercase letter (65
to 90), lowercase letter (97 to 122), digit (48 to 57), or underscore
(95). -/
def isWordChar (c : Char) : Bool :=
  decide ((65 ≤ c.toNat ∧ c.toNat ≤ 90) ∨ (97 ≤ c.toNat ∧ c.toNat ≤ 122) ∨
          (48 ≤ c.toNat ∧ c.toNat ≤ 57) ∨ c.toNat = 95)

/-- ASCII lowercasing of one character, the ASCII behaviour of str.lower:
an uppercase letter moves down by 32 code points, all else is fixed. -/
def toLowerChar (c : Char) : Char :=
  if 65 ≤ c.toNat ∧ c.toNat ≤ 90 then Char.ofNat (c.toNat + 32) else c

/-- Model of Python str.lower restricted to ASCII text. -/
def lowerString (s : String) : String :=
  String.mk (s.data.map toLowerChar)

/-- Accumulator scanner collecting the maximal runs of characters
satisfying q; the second argument is the reversed run in progress. -/
def runsAux (q : Char → Bool) : List Char → List Char → List (List Char)
  | [], acc => if acc.isEmpty then [] else [acc.reverse]
  | c :: rest, acc =>
    if q c then runsAux q rest (c :: acc)
    else if acc.isEmpty then runsAux q rest []
    else acc.reverse :: runsAux q rest []

/-- Maximal runs of characters satisfying q, left to right. -/
def runs (q : Char → Bool) (l : List Char) : List (List Char) :=
  runsAux q l []

/-- Model of re.findall for the digit-run pattern: all maximal runs of
decimal digits in the text, in order. -/
def digitRuns (l : List Char) : List (List Char) :=
  runs isDigitC l

/-- Model of Python str.split with no argument: maximal runs of
non-whitespace characters. -/
def splitWs (l : List Char) : List (List Char) :=
  runs (fun c => !(isWs c)) l

/-- Model of int applied to a digit string: decimal value. -/
def digitVal (r : List Char) : Int :=
  r.foldl (fun a c => a * 10 + ((c.toNat : Int) - 48)) 0

/-- Model of re.sub removing every character matching the class of
non-word non-whitespace characters: keep word characters and whitespace. -/
def stripPunct (w : List Char) : List Char :=
  w.filter (fun c => isWordChar c || isWs c)

/-- The number word table of extract_amount, in source order. -/
def words_to_numbers : List (List Char × Int) :=
  [("zero".data, 0), ("one".data, 1), ("two".data, 2), ("three".data, 3),
   ("four".data, 4), ("five".data, 5), ("six".data, 6), ("seven".data, 7),
   ("eight".data, 8), ("nine".data, 9), ("ten".data, 10),
   ("eleven".data, 11), ("twelve".data, 12), ("thirteen".data, 13),
   ("fourteen".data, 14), ("fifteen".data, 15), ("sixteen".data, 16),
   ("seventeen".data, 17), ("eighteen".data, 18), ("nineteen".data, 19),
   ("twenty".data, 20), ("thirty".data, 30), ("forty".data, 40),
   ("fifty".data, 50), ("sixty".data, 60), ("seventy".data, 70),
   ("eighty".data, 80), ("ninety".data, 90), ("hundred".data, 100),
   ("thousand".data, 1000)]

/-- Dictionary membership test plus access of the word table. -/
def lookupWord (w : List Char) : Option Int :=
  List.lookup w words_to_numbers

/-- Loop body of the word path of extract_amount. The state is the pair
(total, current); the word is stripped of punctuation, looked up, and the
accumulators are updated as in the source. -/
def wordStep (s : Int × Int) (w : List Char) : Int × Int :=
  match lookupWord (stripPunct w) with
  | none => s
  | some num =>
    if num = 100 then (s.1, if s.2 ≠ 0 then s.2 * 100 else 100)
    else if num = 1000 then (s.1 + (if s.2 ≠ 0 then s.2 else 1) * 1000, 0)
    else (s.1, s.2 + num)

/-- Word path of extract_amount: lowercase the text, split it on
whitespace, run the accumulator loop, and add the last group. -/
def wordPathTotal (l : List Char) : Int :=
  let st := (splitWs (l.map toLowerChar)).foldl wordStep (0, 0)
  st.1 + st.2

/-- Translation of extract_amount on a character list: return the value of
the first digit run if one exists, otherwise the word-path total when it
is positive, and the not-found sentinel otherwise. -/
def extractAmountL (l : List Char) : Option Int :=
  match digitRuns l with
  | d :: _ => some (digitVal d)
  | [] =>
    let total := wordPathTotal l
    if total > 0 then some total else none

/-- Translation of extract_amount of backend.py. -/
def extract_amount (s : String) : Option Int :=
  extractAmountL s.data

example : extract_amount "12.50" = some 12 := by decide
example : extract_amount "five" = some 5 := by decide
example : extract_amount "twenty three" = some 23 := by decide
example : extract_amount "one thousand two hundred fifty" = some 1250 := by decide
example : extract_amount "twenty, three." = some 23 := by decide
example : extract_amount "" = none := by decide
example : extract_amount "hello world" = none := by decide
example : extract_amount "zero" = none := by decide
example : extract_amount "twenty-three" = none := by decide
example : extract_amount "TWENTY" = some 20 := by decide
example : extract_amount "pay 50 dollars" = some 50 := by decide

/-- Conversion of Char.ofNat back to the code point, on the lowercase
letter range. -/
theorem toNat_ofNat_lower {n : Nat} (h1 : 97 ≤ n) (h2 : n ≤ 122) :
    (Char.ofNat n).toNat = n := by
  have hv : n.isValidChar := Or.inl (by omega)
  rw [Char.ofNat, dif_pos hv]
  rfl

/-- Code point of a lowercased character. -/
theorem toLowerChar_toNat (c : Char) :
    (toLowerChar c).toNat =
      if 65 ≤ c.toNat ∧ c.toNat ≤ 90 then c.toNat + 32 else c.toNat := by
  unfold toLowerChar
  split
  · next h => exact toNat_ofNat_lower (by omega) (by omega)
  · rfl

/-- Lowercasing does not create or destroy whitespace. -/
theorem isWs_toLowerChar (c : Char) : isWs (toLowerChar c) = isWs c := by
  simp only [isWs, toLowerChar_toNat]
  split <;> (apply decide_eq_decide.mpr; omega)

/-- Lowercasing does not create or destroy digits. -/
theorem isDigitC_toLowerChar (c : Char) : isDigitC (toLowerChar c) = isDigitC c := by
  simp only [isDigitC, toLowerChar_toNat]
  split <;> (apply decide_eq_decide.mpr; omega)

/-- Digits are fixed by lowercasing. -/
theorem toLowerChar_eq_of_digit {c : Char} (h : isDigitC c = true) :
    toLowerChar c = c := by
  simp only [isDigitC, decide_eq_true_eq] at h
  unfold toLowerChar
  rw [if_neg]
  omega

/-- Lowercasing a character twice is the same as lowercasing it once. -/
theorem toLowerChar_idem (c : Char) :
    toLowerChar (toLowerChar c) = toLowerChar c := by
  conv_lhs => rw [toLowerChar]
  rw [if_neg]
  rw [toLowerChar_toNat]
  split <;> omega

/-- Scanner lemma: a separator character splits the scan into the part up
to and including the separator and an independent scan of the rest. -/
theorem runsAux_break (q : Char → Bool) {c : Char} (hc : q c = false)
    (xs ys : List Char) :
    ∀ acc, runsAux q (xs ++ c :: ys) acc =
      runsAux q (xs ++ [c]) acc ++ runsAux q ys [] := by
  induction xs with
  | nil =>
    intro acc
    simp only [List.nil_append, runsAux, hc]
    by_cases ha : acc.isEmpty <;> simp [runsAux, ha]
  | cons x xs ih =>
    intro acc
    simp only [List.cons_append, runsAux]
    by_cases hx : q x
    · simp [hx, ih]
    · by_cases ha : acc.isEmpty <;> simp [hx, ha, ih]

/-- Scanner lemma: with no run in progress, a prefix of characters
failing q contributes nothing. -/
theorem runsAux_notq_prefix (q : Char → Bool) {m : List Char}
    (hm : ∀ c ∈ m, q c = false) (t : List Char) :
    runsAux q (m ++ t) [] = runsAux q t [] := by
  induction m with
  | nil => rfl
  | cons x xs ih =>
    have hx : q x = false := hm x (by simp)
    simp only [List.cons_append, runsAux, hx]
    simpa using ih (fun c hc => hm c (by simp [hc]))

/-- Scanner lemma: a block of characters all satisfying q yields one run,
joined with the run in progress. -/
theorem runsAux_allq (q : Char → Bool) {w : List Char}
    (hw : ∀ c ∈ w, q c = true) :
    ∀ acc, runsAux q w acc =
      if (acc.reverse ++ w).isEmpty then [] else [acc.reverse ++ w] := by
  induction w with
  | nil => intro acc; cases acc <;> simp [runsAux]
  | cons x xs ih =>
    intro acc
    have hx : q x = true := hw x (by simp)
    simp only [runsAux, hx, if_true]
    rw [ih (fun c hc => hw c (by simp [hc]))]
    simp

/-- Scanner lemma: a block of characters all satisfying q followed by one
separator yields exactly the completed run. -/
theorem runsAux_allq_sep (q : Char → Bool) {w : List Char} {b : Char}
    (hw : ∀ c ∈ w, q c = true) (hb : q b = false) :
    ∀ acc, runsAux q (w ++ [b]) acc =
      if (acc.reverse ++ w).isEmpty then [] else [acc.reverse ++ w] := by
  induction w with
  | nil =>
    intro acc
    simp only [List.nil_append, runsAux, hb]
    cases acc <;> simp [runsAux]
  | cons x xs ih =>
    intro acc
    have hx : q x = true := hw x (by simp)
    simp only [List.cons_append, runsAux, hx, if_true, List.append_eq]
    rw [ih (fun c hc => hw c (by simp [hc]))]
    simp

/-- Scanner invariance under a character map that preserves q and fixes
every character satisfying q. -/
theorem runsAux_map (q : Char → Bool) (f : Char → Char)
    (hq : ∀ c, q (f c) = q c) (hfix : ∀ c, q c = true → f c = c)
    (l : List Char) :
    ∀ acc, runsAux q (l.map f) acc = runsAux q l acc := by
  induction l with
  | nil => intro acc; rfl
  | cons x xs ih =>
    intro acc
    simp only [List.map_cons, runsAux, hq x]
    by_cases hx : q x
    · simp [hx, hfix x hx, ih]
    · by_cases ha : acc.isEmpty <;> simp [hx, ha, ih]

/-- Every character of every produced run satisfies q, provided the run
in progress does. -/
theorem runsAux_sat (q : Char → Bool) (l : List Char) :
    ∀ acc, (∀ c ∈ acc, q c = true) →
      ∀ r ∈ runsAux q l acc, ∀ c ∈ r, q c = true := by
  induction l with
  | nil =>
    intro acc hacc r hr c hc
    by_cases ha : acc.isEmpty
    · simp [runsAux, ha] at hr
    · simp [runsAux, ha] at hr
      subst hr
      exact hacc c (by simpa using hc)
  | cons x xs ih =>
    intro acc hacc r hr c hc
    by_cases hx : q x
    · simp only [runsAux, hx, if_true] at hr
      refine ih (x :: acc) ?_ r hr c hc
      intro d hd
      rcases List.mem_cons.mp hd with h | h
      · subst h; exact hx
      · exact hacc d h
    · simp only [runsAux, hx] at hr
      by_cases ha : acc.isEmpty
      · simp only [ha, if_true, Bool.false_eq_true] at hr
        exact ih [] (by simp) r (by simpa using hr) c hc
      · simp only [ha, Bool.false_eq_true, if_false] at hr
        rcases List.mem_cons.mp hr with h | h
        · subst h
          exact hacc c (by simpa using hc)
        · exact ih [] (by simp) r h c hc

/-- Folding the decimal-evaluation step from a nonnegative seed over digit
characters stays nonnegative. -/
theorem digitVal_foldl_nonneg {r : List Char} (h : ∀ c ∈ r, isDigitC c = true) :
    ∀ a : Int, 0 ≤ a →
      0 ≤ r.foldl (fun a c => a * 10 + ((c.toNat : Int) - 48)) a := by
  induction r with
  | nil => intro a ha; simpa using ha
  | cons x xs ih =>
    intro a ha
    have hx : isDigitC x = true := h x (by simp)
    simp only [isDigitC, decide_eq_true_eq] at hx
    simp only [List.foldl_cons]
    apply ih (fun c hc => h c (by simp [hc]))
    omega

/-- Value of a run of digit characters is nonnegative. -/
theorem digitVal_nonneg {r : List Char} (h : ∀ c ∈ r, isDigitC c = true) :
    0 ≤ digitVal r :=
  digitVal_foldl_nonneg h 0 le_rfl

/-- Unrecognized words leave the accumulator pair unchanged. -/
theorem wordStep_skip {w : List Char}
    (hw : lookupWord (stripPunct w) = none) (s : Int × Int) :
    wordStep s w = s := by
  simp [wordStep, hw]

/-- Folding the loop body over a word list with one unrecognized word
inserted equals folding it over the list without that word. -/
theorem foldl_wordStep_skip {w : List Char}
    (hw : lookupWord (stripPunct w) = none) (A B : List (List Char))
    (s : Int × Int) :
    (A ++ w :: B).foldl wordStep s = (A ++ B).foldl wordStep s := by
  rw [List.foldl_append, List.foldl_append, List.foldl_cons, wordStep_skip hw]

/-- Text without digit characters has no digit runs. -/
theorem digitRuns_eq_nil {l : List Char} (h : ∀ c ∈ l, isDigitC c = false) :
    digitRuns l = [] := by
  have h0 := runsAux_notq_prefix isDigitC h []
  simpa [digitRuns, runs] using h0

/-- Decomposition of the digit runs at the first maximal digit run: a
digit-free prefix, a nonempty all-digit run, and a rest that does not
start with a digit. -/
theorem digitRuns_first {p r t : List Char}
    (hp : ∀ c ∈ p, isDigitC c = false)
    (hr0 : r ≠ [])
    (hr : ∀ c ∈ r, isDigitC c = true)
    (ht : ∀ c ∈ t.take 1, isDigitC c = false) :
    ∃ rest, digitRuns (p ++ r ++ t) = r :: rest := by
  have hpre : digitRuns (p ++ r ++ t) = runsAux isDigitC (r ++ t) [] := by
    rw [List.append_assoc]
    exact runsAux_notq_prefix isDigitC hp (r ++ t)
  cases t with
  | nil =>
    refine ⟨[], ?_⟩
    rw [hpre]
    simp only [List.append_nil]
    rw [runsAux_allq isDigitC hr []]
    simp [hr0]
  | cons b t2 =>
    have hb : isDigitC b = false := ht b (by simp)
    refine ⟨runsAux isDigitC t2 [], ?_⟩
    rw [hpre, runsAux_break isDigitC hb r t2 [], runsAux_allq_sep isDigitC hr hb []]
    simp [hr0]

/-- Extraction at a text with an identified first digit run returns the
value of that run. -/
theorem extractAmountL_firstRun {l p r t : List Char}
    (hl : l = p ++ r ++ t)
    (hp : ∀ c ∈ p, isDigitC c = false)
    (hr0 : r ≠ [])
    (hr : ∀ c ∈ r, isDigitC c = true)
    (ht : ∀ c ∈ t.take 1, isDigitC c = false) :
    extractAmountL l = some (digitVal r) := by
  subst hl
  obtain ⟨rest, hrest⟩ := digitRuns_first hp hr0 hr ht
  rw [List.append_assoc] at hrest
  simp [extractAmountL, hrest]

/-- Digit runs are unchanged by inserting a whitespace-separated
digit-free token. -/
theorem digitRuns_insert (P S T : List Char)
    (hdig : ∀ c ∈ T, isDigitC c = false) :
    digitRuns (P ++ (' ' :: (T ++ (' ' :: S)))) = digitRuns (P ++ (' ' :: S)) := by
  have hsp : isDigitC ' ' = false := by decide
  unfold digitRuns runs
  rw [runsAux_break isDigitC hsp P (T ++ (' ' :: S)) [],
      runsAux_break isDigitC hsp P S []]
  congr 1
  have hT : T ++ (' ' :: S) = (T ++ [' ']) ++ S := by simp
  rw [hT]
  apply runsAux_notq_prefix
  intro c hc
  rcases List.mem_append.mp hc with h | h
  · exact hdig c h
  · simp only [List.mem_singleton] at h
    subst h
    exact hsp

/-- Word-path total is unchanged by inserting a whitespace-separated
token whose stripped lowercase form is not in the table. -/
theorem wordPathTotal_insert (P S T : List Char)
    (hws : ∀ c ∈ T, isWs c = false)
    (hlk : lookupWord (stripPunct (T.map toLowerChar)) = none) :
    wordPathTotal (P ++ (' ' :: (T ++ (' ' :: S)))) =
      wordPathTotal (P ++ (' ' :: S)) := by
  have hsp : (fun c => !(isWs c)) ' ' = false := by decide
  have hlow : toLowerChar ' ' = ' ' := by decide
  have hT : ∀ c ∈ T.map toLowerChar, (fun c => !(isWs c)) c = true := by
    intro c hc
    rcases List.mem_map.mp hc with ⟨c0, hc0, rfl⟩
    simp [isWs_toLowerChar, hws c0 hc0]
  unfold wordPathTotal splitWs runs
  simp only [List.map_append, List.map_cons, hlow]
  rw [runsAux_break _ hsp (P.map toLowerChar)
        (T.map toLowerChar ++ (' ' :: S.map toLowerChar)) [],
      runsAux_break _ hsp (P.map toLowerChar) (S.map toLowerChar) [],
      runsAux_break _ hsp (T.map toLowerChar) (S.map toLowerChar) [],
      runsAux_allq_sep _ hT hsp []]
  simp only [List.reverse_nil, List.nil_append]
  by_cases hTe : (T.map toLowerChar).isEmpty
  · simp [hTe]
  · simp only [hTe, Bool.false_eq_true, if_false]
    have hmid :
        runsAux (fun c => !(isWs c)) (P.map toLowerChar ++ [' ']) [] ++
            ([T.map toLowerChar] ++
              runsAux (fun c => !(isWs c)) (S.map toLowerChar) []) =
          runsAux (fun c => !(isWs c)) (P.map toLowerChar ++ [' ']) [] ++
            (T.map toLowerChar ::
              runsAux (fun c => !(isWs c)) (S.map toLowerChar) []) := by
      simp
    rw [hmid, foldl_wordStep_skip hlk]

/-- Extraction is unchanged by inserting a whitespace-separated token
that has no digits and whose stripped lowercase form is not in the
table. -/
theorem extractAmountL_insert (P S T : List Char)
    (hws : ∀ c ∈ T, isWs c = false)
    (hdig : ∀ c ∈ T, isDigitC c = false)
    (hlk : lookupWord (stripPunct (T.map toLowerChar)) = none) :
    extractAmountL (P ++ (' ' :: (T ++ (' ' :: S)))) =
      extractAmountL (P ++ (' ' :: S)) := by
  unfold extractAmountL
  rw [digitRuns_insert P S T hdig, wordPathTotal_insert P S T hws hlk]

/-- Extraction is invariant under lowercasing the whole text first. -/
theorem extractAmountL_lower (l : List Char) :
    extractAmountL (l.map toLowerChar) = extractAmountL l := by
  have hdr : digitRuns (l.map toLowerChar) = digitRuns l := by
    unfold digitRuns runs
    exact runsAux_map isDigitC toLowerChar isDigitC_toLowerChar
      (fun c hc => toLowerChar_eq_of_digit hc) l []
  have hmm : (l.map toLowerChar).map toLowerChar = l.map toLowerChar := by
    rw [List.map_map]
    exact List.map_congr_left (fun a _ => toLowerChar_idem a)
  have hwp : wordPathTotal (l.map toLowerChar) = wordPathTotal l := by
    unfold wordPathTotal
    rw [hmm]
  unfold extractAmountL
  rw [hdr, hwp]

/-- Extraction on digit-free text is the gated word-path total. -/
theorem extractAmountL_of_nodigits {l : List Char}
    (h : ∀ c ∈ l, isDigitC c = false) :
    extractAmountL l =
      if wordPathTotal l > 0 then some (wordPathTotal l) else none := by
  unfold extractAmountL
  rw [digitRuns_eq_nil h]

/-- Modelled from the claim wording of C2: the accumulator transition on
one table value. A value of exactly 100 multiplies a nonzero current by
100 and otherwise sets it to 100; a value of exactly 1000 turns current
(or 1 when current is zero) into thousands, adds it to total and resets
current; any other value is added to current. -/
def specStepC2 (s : Int × Int) (v : Int) : Int × Int :=
  if v = 100 then (s.1, if s.2 ≠ 0 then s.2 * 100 else 100)
  else if v = 1000 then (s.1 + (if s.2 ≠ 0 then s.2 else 1) * 1000, 0)
  else (s.1, s.2 + v)

/-- Table values of the recognized tokens of the text, in order. -/
def tokenVals (l : List Char) : List Int :=
  (splitWs (l.map toLowerChar)).filterMap (fun w => lookupWord (stripPunct w))

/-- Modelled from the claim wording of C2: fold the accumulator over the
recognized values, then finish with total plus current. -/
def specAccumC2 (vs : List Int) : Int :=
  let s := vs.foldl specStepC2 (0, 0)
  s.1 + s.2

/-- The source loop over words equals the claim accumulator over the
values of the recognized words. -/
theorem foldl_wordStep_eq_filterMap (ws : List (List Char)) :
    ∀ s : Int × Int,
      ws.foldl wordStep s =
        (ws.filterMap (fun w => lookupWord (stripPunct w))).foldl specStepC2 s := by
  induction ws with
  | nil => intro s; rfl
  | cons w ws ih =>
    intro s
    cases hw : lookupWord (stripPunct w) with
    | none =>
      simp only [List.foldl_cons, List.filterMap_cons, hw]
      rw [wordStep_skip hw, ih]
    | some v =>
      simp only [List.foldl_cons, List.filterMap_cons, hw]
      rw [ih]
      congr 1
      simp [wordStep, hw, specStepC2]

/-- Word-path total equals the claim accumulator semantics. -/
theorem wordPathTotal_eq_specAccumC2 (l : List Char) :
    wordPathTotal l = specAccumC2 (tokenVals l) := by
  unfold wordPathTotal specAccumC2 tokenVals
  rw [foldl_wordStep_eq_filterMap]

/-- Alphanumeric ASCII character: uppercase letter, lowercase letter, or
digit. -/
def isAlphanumC (c : Char) : Bool :=
  decide ((65 ≤ c.toNat ∧ c.toNat ≤ 90) ∨ (97 ≤ c.toNat ∧ c.toNat ≤ 122) ∨
          (48 ≤ c.toNat ∧ c.toNat ≤ 57))

/-- Modelled from the claim wording of C4: delete every character that is
not alphanumeric and not whitespace. -/
def stripPunctClaimC4 (w : List Char) : List Char :=
  w.filter (fun c => isAlphanumC c || isWs c)

/-- Modelled from the amended wording of C4: delete every character that
is neither a word character (alphanumeric or underscore) nor
whitespace. -/
def stripPunctAmendedC4 (w : List Char) : List Char :=
  w.filter (fun c => isAlphanumC c || decide (c.toNat = 95) || isWs c)

/-- Extraction pipeline with a replaceable stripping rule; every other
part is the pipeline of extract_amount. -/
def extractAmountWith (strip : List Char → List Char) (s : String) : Option Int :=
  match digitRuns s.data with
  | d :: _ => some (digitVal d)
  | [] =>
    let st := (splitWs (s.data.map toLowerChar)).foldl
      (fun t w =>
        match lookupWord (strip w) with
        | none => t
        | some num =>
          if num = 100 then (t.1, if t.2 ≠ 0 then t.2 * 100 else 100)
          else if num = 1000 then (t.1 + (if t.2 ≠ 0 then t.2 else 1) * 1000, 0)
          else (t.1, t.2 + num)) ((0 : Int), (0 : Int))
    if st.1 + st.2 > 0 then some (st.1 + st.2) else none

/-- The parameterized pipeline at the source stripping rule is the source
function. -/
theorem extractAmountWith_stripPunct (s : String) :
    extractAmountWith stripPunct s = extract_amount s := by
  rfl

/-- The amended stripping rule agrees with the source stripping rule. -/
theorem stripPunctAmendedC4_eq (w : List Char) :
    stripPunctAmendedC4 w = stripPunct w := by
  unfold stripPunctAmendedC4 stripPunct
  apply List.filter_congr
  intro c hc
  simp only [isAlphanumC, isWordChar, isWs, ← Bool.decide_or]
  apply decide_eq_decide.mpr
  omega

/-- C1: for every input string containing at least one run of decimal
digits, extract_amount returns the integer value of the first (leftmost)
maximal digit run, regardless of any number words elsewhere; in
particular extraction of the string 12.50 yields 12. -/
theorem claim_C1 :
    (∀ (s : String) (p r t : List Char), s.data = p ++ r ++ t →
        (∀ c ∈ p, isDigitC c = false) → r ≠ [] →
        (∀ c ∈ r, isDigitC c = true) →
        (∀ c ∈ t.take 1, isDigitC c = false) →
        extract_amount s = some (digitVal r)) ∧
      extract_amount "12.50" = some 12 := by
  refine ⟨?_, by decide⟩
  intro s p r t hs hp hr0 hr ht
  unfold extract_amount
  exact extractAmountL_firstRun hs hp hr0 hr ht

theorem claim_C1_witness : extract_amount "pay 50 dollars" = some 50 := by
  have h := claim_C1.1 "pay 50 dollars" "pay ".data "50".data " dollars".data
    (by decide) (by decide) (by decide) (by decide) (by decide)
  exact h.trans (by decide)

/-- C2: on the word path the accumulator follows the stated semantics (a
table value of 100 scales a nonzero current or becomes 100, a value of
1000 completes a thousands group into the total, anything else adds to
current, and the final result adds current into total); the listed
examples evaluate accordingly. -/
theorem claim_C2 :
    (∀ l : List Char, wordPathTotal l = specAccumC2 (tokenVals l)) ∧
      extract_amount "five" = some 5 ∧
      extract_amount "twenty three" = some 23 ∧
      extract_amount "one hundred" = some 100 ∧
      extract_amount "two thousand" = some 2000 ∧
      extract_amount "one thousand two hundred fifty" = some 1250 ∧
      extract_amount "hundred" = some 100 ∧
      extract_amount "thousand" = some 1000 :=
  ⟨wordPathTotal_eq_specAccumC2, by decide, by decide, by decide, by decide,
   by decide, by decide, by decide⟩

/-- C3: on digit-free input the result is the accumulated total when it
is positive and the not-found sentinel otherwise; the empty string, text
with no number words, and a lone word zero all return not-found. -/
theorem claim_C3 :
    (∀ s : String, (∀ c ∈ s.data, isDigitC c = false) →
        extract_amount s =
          if wordPathTotal s.data > 0 then some (wordPathTotal s.data)
          else none) ∧
      extract_amount "" = none ∧
      extract_amount "hello world" = none ∧
      extract_amount "zero" = none := by
  refine ⟨?_, by decide, by decide, by decide⟩
  intro s hs
  unfold extract_amount
  exact extractAmountL_of_nodigits hs

theorem claim_C3_witness :
    extract_amount "zero" =
      if wordPathTotal "zero".data > 0 then some (wordPathTotal "zero".data)
      else none :=
  claim_C3.1 "zero" (by decide)

/-- C4 counterexample: the code keeps the underscore (a non-alphanumeric,
non-whitespace character), so the claimed stripping rule disagrees with
the code on a token containing an underscore. -/
theorem claim_C4_counterexample :
    extract_amount "five_" = none ∧
      extractAmountWith stripPunctClaimC4 "five_" = some 5 := by
  exact ⟨by decide, by decide⟩

/-- C4 (amended): on the word path the input is lowercased and split on
whitespace, and every character that is neither a word character
(alphanumeric or underscore) nor whitespace is stripped from each token
before lookup; in particular extraction of the text twenty, three. with
punctuation yields 23. -/
theorem claim_C4 :
    (∀ s : String, extractAmountWith stripPunctAmendedC4 s = extract_amount s) ∧
      extract_amount "twenty, three." = some 23 := by
  refine ⟨?_, by decide⟩
  intro s
  have h1 : stripPunctAmendedC4 = stripPunct := funext stripPunctAmendedC4_eq
  rw [h1, extractAmountWith_stripPunct]

/-- C5: inserting a whitespace-delimited token that contains no digits
and whose punctuation-stripped lowercase form is not in the table, as its
own whitespace-separated word anywhere in the text, leaves the result of
extract_amount unchanged. -/
theorem claim_C5 (pre suf tok : String)
    (hws : ∀ c ∈ tok.data, isWs c = false)
    (hdig : ∀ c ∈ tok.data, isDigitC c = false)
    (hlk : lookupWord (stripPunct (tok.data.map toLowerChar)) = none) :
    extract_amount (pre ++ " " ++ tok ++ " " ++ suf) =
      extract_amount (pre ++ " " ++ suf) := by
  have hone : (" " : String).data = [' '] := rfl
  have h1 : (pre ++ " " ++ tok ++ " " ++ suf).data =
      pre.data ++ (' ' :: (tok.data ++ (' ' :: suf.data))) := by
    simp [String.data_append, hone]
  have h2 : (pre ++ " " ++ suf).data = pre.data ++ (' ' :: suf.data) := by
    simp [String.data_append, hone]
  unfold extract_amount
  rw [h1, h2]
  exact extractAmountL_insert pre.data suf.data tok.data hws hdig hlk

theorem claim_C5_witness :
    extract_amount ("twenty" ++ " " ++ "dollars" ++ " " ++ "three") =
      extract_amount ("twenty" ++ " " ++ "three") :=
  claim_C5 "twenty" "three" "dollars" (by decide) (by decide) (by decide)

/-- C6: extraction is total; on every input string it yields either the
not-found sentinel or a nonnegative integer. -/
theorem claim_C6 (s : String) :
    extract_amount s = none ∨
      ∃ n : Int, extract_amount s = some n ∧ 0 ≤ n := by
  unfold extract_amount extractAmountL
  cases hd : digitRuns s.data with
  | nil =>
    by_cases hpos : wordPathTotal s.data > 0
    · right
      exact ⟨wordPathTotal s.data, by simp [hpos], le_of_lt hpos⟩
    · left
      simp [hpos]
  | cons d rest =>
    right
    refine ⟨digitVal d, by simp, ?_⟩
    apply digitVal_nonneg
    intro c hc
    have hmem : d ∈ runsAux isDigitC s.data [] := by
      unfold digitRuns runs at hd
      rw [hd]
      simp
    exact runsAux_sat isDigitC s.data [] (by simp) d hmem c hc

/-- C7: word matching is case-insensitive; extraction of a string equals
extraction of its lowercased form, and the uppercase word TWENTY behaves
as the lowercase word twenty. -/
theorem claim_C7 :
    (∀ s : String, extract_amount (lowerString s) = extract_amount s) ∧
      extract_amount "TWENTY" = extract_amount "twenty" := by
  refine ⟨?_, by decide⟩
  intro s
  unfold extract_amount lowerString
  exact extractAmountL_lower s.data

/-- C8: extraction is deterministic; equal input strings always produce
equal results, the computation depending on nothing but the input. -/
theorem claim_C8 (s t : String) (h : s = t) :
    extract_amount s = extract_amount t := by
  rw [h]

theorem claim_C8_witness : extract_amount "five" = extract_amount "five" :=
  claim_C8 "five" "five" rfl

/-- C9: a hyphenated compound number word is not recognized; the text
twenty-three is a single token, stripping deletes the hyphen inside it
producing the word twentythree, that word is not in the table, and the
result is the not-found sentinel. -/
theorem claim_C9 :
    extract_amount "twenty-three" = none ∧
      splitWs (("twenty-three".data).map toLowerChar) = ["twenty-three".data] ∧
      stripPunct "twenty-three".data = "twentythree".data ∧
      lookupWord "twentythree".data = none := by
  exact ⟨by decide, by decide, by decide, by decide⟩

/-- C10: a zero amount is only representable via literal digits; the
string 0, and any input whose first digit run is the single digit 0,
yields the integer 0 through the digit path, while every integer the word
path returns on digit-free input is at least 1. -/
theorem claim_C10 :
    extract_amount "0" = some 0 ∧
      (∀ (s : String) (p t : List Char), s.data = p ++ ('0' :: t) →
          (∀ c ∈ p, isDigitC c = false) →
          (∀ c ∈ t.take 1, isDigitC c = false) →
          extract_amount s = some 0) ∧
      (∀ (s : String) (n : Int),
          (∀ c ∈ s.data, isDigitC c = false) →
          extract_amount s = some n → 1 ≤ n) := by
  refine ⟨by decide, ?_, ?_⟩
  · intro s p t hs hp ht
    have hl : s.data = p ++ ['0'] ++ t := by
      rw [hs]
      simp
    have h := @extractAmountL_firstRun s.data p ['0'] t hl hp (by simp)
      (by decide) ht
    unfold extract_amount
    exact h.trans (by decide)
  · intro s n hdf h
    unfold extract_amount at h
    rw [extractAmountL_of_nodigits hdf] at h
    split at h
    · have h2 : wordPathTotal s.data = n := Option.some.inj h
      omega
    · exact absurd h (by simp)

theorem claim_C10_witness :
    extract_amount "a 0." = some 0 ∧ (1 : Int) ≤ 5 := by
  constructor
  · exact claim_C10.2.1 "a 0." "a ".data ".".data (by decide) (by decide)
      (by decide)
  · exact claim_C10.2.2 "five" 5 (by decide) (by decide)
